import Mathlib

/-
Verification development for the pmt template engine (src/parser.rs, src/app.rs).

Strings are modelled as `List Char`; Rust operates on UTF-8 byte indices, but
every index the code manipulates is produced by searching for an ASCII
character (`{`, `}`, `"`, `/`, `|`, `,`), so the byte positions always fall on
character boundaries and the char-list model is exact.

Randomness (`rand::rng` + `IndexedRandom::choose`) is modelled by an explicit
choice function `pickO : List (List Char) → Option (List Char)`; a faithful
pick returns `none` exactly on the empty list and otherwise some member.
-/

namespace PMT

/-- Unicode `White_Space` property, as used by Rust's `char::is_whitespace`
(the predicate behind `str::trim`, `str::split_whitespace`). -/
def isRustWhitespace (c : Char) : Bool :=
  c == ' ' || c == '\t' || c == '\n' || c == '\x0b' || c == '\x0c' || c == '\r' ||
  c == '\u0085' || c == '\u00A0' || c == '\u1680' ||
  ('\u2000' ≤ c && c ≤ '\u200A') ||
  c == '\u2028' || c == '\u2029' || c == '\u202F' || c == '\u205F' || c == '\u3000'

/-- Rust `str::trim_start`. -/
def trimStart (l : List Char) : List Char := l.dropWhile isRustWhitespace

/-- Rust `str::trim_end`. -/
def trimEnd (l : List Char) : List Char := (l.reverse.dropWhile isRustWhitespace).reverse

/-- Rust `str::trim`. -/
def rustTrim (l : List Char) : List Char := trimEnd (trimStart l)

/-- src/models.rs `Token`. -/
inductive Token where
  | Text (content : List Char)
  | Var (name : List Char) (desc : Option (List Char)) (raw : List Char)
  | Random (options : List (List Char)) (choice : List Char) (raw : List Char)
deriving DecidableEq, Repr

/-- src/models.rs `Field`. -/
structure Field where
  name : List Char
  label : List Char
  value : List Char
deriving DecidableEq, Repr

/-- src/models.rs `Template`. -/
structure Template where
  name : List Char
  body : List Char
deriving DecidableEq, Repr

/-- src/models.rs `TreeItem`. -/
structure TreeItem where
  label : List Char
  depth : Nat
  template_index : Option Nat
deriving DecidableEq, Repr

/-- src/parser.rs `TreeNode` (lines 72-77). -/
inductive TreeNode where
  | mk (name : List Char) (template_index : Option Nat) (children : List TreeNode)
deriving Repr

def TreeNode.name : TreeNode → List Char
  | .mk n _ _ => n

def TreeNode.template_index : TreeNode → Option Nat
  | .mk _ ti _ => ti

def TreeNode.children : TreeNode → List TreeNode
  | .mk _ _ ch => ch

/-- The quoted-mode scanning loop of `parse_random_options`
(src/parser.rs lines 178-195): `inQuote`/`current` are the loop state; the
final clause is the after-loop `if in_quote && !current.is_empty()` push. -/
def scanQuoted : List Char → Bool → List Char → List (List Char)
  | [], inQuote, current => if inQuote && !current.isEmpty then [current] else []
  | ch :: rest, inQuote, current =>
    if ch == '"' then
      if inQuote then current :: scanQuoted rest false []
      else scanQuoted rest true []
    else if inQuote then scanQuoted rest inQuote (current ++ [ch])
    else scanQuoted rest inQuote current

/-- Rust `str::split_whitespace` (splits on Unicode-whitespace runs, never
yields an empty piece); `current` accumulates the word in reverse. -/
def splitWhitespaceGo : List Char → List Char → List (List Char)
  | [], current => if current.isEmpty then [] else [current.reverse]
  | ch :: rest, current =>
    if isRustWhitespace ch then
      if current.isEmpty then splitWhitespaceGo rest []
      else current.reverse :: splitWhitespaceGo rest []
    else splitWhitespaceGo rest (ch :: current)

/-- Rust `str::split_whitespace`. -/
def splitWhitespace (l : List Char) : List (List Char) := splitWhitespaceGo l []

/-- Rust `str::trim_matches(',')`: strips every leading and trailing comma. -/
def trimMatchesComma (l : List Char) : List Char :=
  ((l.dropWhile (fun c => c == ',')).reverse.dropWhile (fun c => c == ',')).reverse

/-- src/parser.rs `parse_random_options` (lines 176-204). -/
def parse_random_options (input : List Char) : List (List Char) :=
  let options := scanQuoted input false []
  if options.isEmpty then
    ((splitWhitespace input).map trimMatchesComma).filter (fun part => !part.isEmpty)
  else
    options

/-- The literal prefix `"random|"` tested by `parse_placeholder`. -/
def randomKey : List Char := ['r', 'a', 'n', 'd', 'o', 'm', '|']

/-- src/parser.rs `parse_placeholder` (lines 147-174). `pickO` models
`options.choose(&mut rng)`; `.getD []` models `.cloned().unwrap_or_default()`. -/
def parse_placeholder (pickO : List (List Char) → Option (List Char))
    (inner raw : List Char) : Option Token :=
  let trimmed := rustTrim inner
  if randomKey.isPrefixOf trimmed then
    let options := parse_random_options (trimmed.drop randomKey.length)
    if options.isEmpty then some (.Text raw)
    else some (.Random options ((pickO options).getD []) raw)
  else
    let name := rustTrim (trimmed.takeWhile (fun c => c != '|'))
    if name.isEmpty then none
    else
      let desc : Option (List Char) :=
        match trimmed.dropWhile (fun c => c != '|') with
        | [] => none
        | _ :: restDesc => some (rustTrim restDesc)
      some (.Var name desc raw)

/-- The scanning loop of src/parser.rs `parse_tokens` (lines 117-145).
Each iteration strips `before ++ '{' :: inner ++ '}' :: rest` off the front of
the remaining input, so the remainder shrinks by at least two characters per
recursive step; `fuel := body.length` therefore never runs out (the
`fuel = 0` clause is unreachable under that bound). -/
def parse_tokens_go (pickO : List (List Char) → Option (List Char)) :
    Nat → List Char → List Token
  | fuel, body =>
    let before := body.takeWhile (fun c => c != '{')
    match body.dropWhile (fun c => c != '{'), fuel with
    | [], _ => if before.isEmpty then [] else [Token.Text before]
    | lb :: after, fuel =>
      let pre := if before.isEmpty then [] else [Token.Text before]
      let inner := after.takeWhile (fun c => c != '}')
      match after.dropWhile (fun c => c != '}'), fuel with
      | [], _ => pre ++ [Token.Text (lb :: after)]
      | _ :: _, 0 => pre
      | rb :: rest, fuel' + 1 =>
        let raw := lb :: (inner ++ [rb])
        pre ++ ((parse_placeholder pickO inner raw).getD (Token.Text raw)
          :: parse_tokens_go pickO fuel' rest)

/-- src/parser.rs `parse_tokens` (lines 117-145). -/
def parse_tokens (pickO : List (List Char) → Option (List Char))
    (body : List Char) : List Token :=
  parse_tokens_go pickO body.length body

/-- The label computation of src/parser.rs `collect_fields` (lines 213-216). -/
def mkLabel (name : List Char) (desc : Option (List Char)) : List Char :=
  match desc with
  | some d => if !d.isEmpty then name ++ [' ', '('] ++ d ++ [')'] else name
  | none => name

/-- The loop of src/parser.rs `collect_fields` (lines 206-225); `acc` is the
`fields` vector being built. -/
def collect_fields_go : List Field → List Token → List Field
  | acc, [] => acc
  | acc, tok :: rest =>
    match tok with
    | .Var name desc _ =>
      if acc.any (fun f => f.name == name) then collect_fields_go acc rest
      else collect_fields_go (acc ++ [⟨name, mkLabel name desc, []⟩]) rest
    | _ => collect_fields_go acc rest

/-- src/parser.rs `collect_fields` (lines 206-225). -/
def collect_fields (tokens : List Token) : List Field :=
  collect_fields_go [] tokens

/-- Per-token output of src/parser.rs `render_template` (lines 229-251). -/
def renderToken (fields : List Field) : Token → List Char
  | .Text text => text
  | .Var name _ raw =>
    let value := ((fields.find? (fun f => f.name == name)).map Field.value).getD []
    if value.isEmpty then raw else value
  | .Random _ choice raw => if choice.isEmpty then raw else choice

/-- src/parser.rs `render_template` (lines 227-254): the loop appends each
token's resolution to `output`. -/
def render_template : List Token → List Field → List Char
  | [], _ => []
  | tok :: rest, fields => renderToken fields tok ++ render_template rest fields

/-- src/app.rs `EditorState::reroll_random` (lines 334-347): every `Random`
token's `choice` is overwritten by a fresh pick when `choose` returns one
(`if let Some(pick) = options.choose(&mut rng)`). -/
def reroll_random (pickO : List (List Char) → Option (List Char))
    (tokens : List Token) : List Token :=
  tokens.map fun tok =>
    match tok with
    | .Random options choice raw =>
      match pickO options with
      | some pick => .Random options pick raw
      | none => .Random options choice raw
    | other => other

/-- Rust `str::split('/')` (one piece per separator gap, keeps empty pieces);
`current` accumulates the piece in reverse. -/
def splitOnSlashGo : List Char → List Char → List (List Char)
  | [], current => [current.reverse]
  | ch :: rest, current =>
    if ch == '/' then current.reverse :: splitOnSlashGo rest []
    else splitOnSlashGo rest (ch :: current)

/-- The segment computation of src/parser.rs `build_tree_items` (lines 58-63):
split on `/`, trim each part, drop empty parts. -/
def nameSegments (name : List Char) : List (List Char) :=
  ((splitOnSlashGo name []).map rustTrim).filter (fun part => !part.isEmpty)

/-- The `children.iter_mut().find(...)` update inside `TreeNode::insert`:
rewrites the first child named `p` with `f`, leaving the rest alone. -/
def replaceFirstNamed (p : List Char) (f : TreeNode → TreeNode) :
    List TreeNode → List TreeNode
  | [] => []
  | c :: cs => if c.name == p then f c :: cs else c :: replaceFirstNamed p f cs

/-- src/parser.rs `TreeNode::insert` (lines 88-103): empty path records the
index on this node; otherwise descend into (or create and append) the child
named by the first segment. -/
def TreeNode.insert (idx : Nat) : List (List Char) → TreeNode → TreeNode
  | [], node => .mk node.name (some idx) node.children
  | p :: rest, node =>
    if node.children.any (fun c => c.name == p) then
      .mk node.name node.template_index
        (replaceFirstNamed p (TreeNode.insert idx rest) node.children)
    else
      .mk node.name node.template_index
        (node.children ++ [TreeNode.insert idx rest (.mk p none [])])

mutual

/-- src/parser.rs `TreeNode::flatten` (lines 105-114): for each child, emit
one item at `depth`, then the child's own subtree at `depth + 1`; the node
itself is never emitted. `flattenList` is that loop over a child list. -/
def TreeNode.flatten : TreeNode → Nat → List TreeItem
  | .mk _ _ ch, depth => flattenList ch depth

/-- The `for child in &self.children` loop of `TreeNode::flatten`. -/
def flattenList : List TreeNode → Nat → List TreeItem
  | [], _ => []
  | c :: cs, depth =>
    ⟨c.name, depth, c.template_index⟩ ::
      (TreeNode.flatten c (depth + 1) ++ flattenList cs depth)

end

/-- src/parser.rs `build_tree_items` (lines 55-70): insert every template at
its trimmed non-empty `/`-segments, then flatten from the root at depth 0. -/
def build_tree_items (templates : List Template) : List TreeItem :=
  let root := templates.enum.foldl
    (fun node p => TreeNode.insert p.1 (nameSegments p.2.name) node)
    (TreeNode.mk [] none [])
  TreeNode.flatten root 0

/-- Raw source text a token stands for: the content of a `Text` token, the
original placeholder span of a `Var` or `Random` token. -/
def Token.rawText : Token → List Char
  | .Text content => content
  | .Var _ _ raw => raw
  | .Random _ _ raw => raw

/-- Whether a token is a `Random` placeholder. -/
def Token.isRandom : Token → Bool
  | .Random _ _ _ => true
  | _ => false

/-- Token with its mutable `choice` state erased (used to state that reroll
preserves everything except the current choice). -/
def Token.stripChoice : Token → Token
  | .Random options _ raw => .Random options [] raw
  | other => other

/-- The `(name, desc)` pairs of the `Var` tokens of a sequence, in order. -/
def varPairs (tokens : List Token) : List (List Char × Option (List Char)) :=
  tokens.filterMap fun tok =>
    match tok with
    | .Var n d _ => some (n, d)
    | _ => none

/-- Modelled from the spec (§4.4): one field per distinct `Var` name, in
first-occurrence order, labelled from the first occurrence, value empty.
Comparison definition for the field-extraction claim: it dedups by filtering
later occurrences out ahead of time, unlike the code's seen-check. -/
def extractFieldsSpec : List (List Char × Option (List Char)) → List Field
  | [] => []
  | (n, d) :: rest =>
    ⟨n, mkLabel n d, []⟩ :: extractFieldsSpec (rest.filter (fun q => q.1 ≠ n))
termination_by l => l.length
decreasing_by
  exact Nat.lt_succ_of_le (List.length_filter_le _ _)

/-- Per-token effect of a reroll: `Text` and `Var` tokens are untouched; a
`Random` token keeps its options and raw span, and its choice becomes a
member of the options when they are non-empty, staying put when they are
empty (the `if let Some(pick)` guard). -/
def rerollRel : Token → Token → Prop
  | .Text s, t' => t' = .Text s
  | .Var n d r, t' => t' = .Var n d r
  | .Random opts ch raw, t' =>
    (opts = [] → t' = .Random opts ch raw) ∧
    (opts ≠ [] → ∃ ch', ch' ∈ opts ∧ t' = .Random opts ch' raw)

/-- A concrete faithful pick function: the first option. -/
def headPick (l : List (List Char)) : Option (List Char) := l.head?

mutual

/-- Bool-level occurrence of template index `i` on a node or anywhere below
it (proof device for the tree claims, not part of the source). -/
def hasIdx (i : Nat) : TreeNode → Bool
  | .mk _ ti ch => ti == some i || hasIdxL i ch

/-- Occurrence of template index `i` anywhere in a forest. -/
def hasIdxL (i : Nat) : List TreeNode → Bool
  | [] => false
  | c :: cs => hasIdx i c || hasIdxL i cs

end


/-! Helper lemmas about spans, trimming and the tokenizer loop. -/

lemma forall_bne_of_not_mem {c : Char} {l : List Char} (h : c ∉ l) :
    ∀ x ∈ l, (x != c) = true := by
  intro x hx
  simp only [bne_iff_ne, ne_eq]
  rintro rfl
  exact h hx

lemma takeWhile_eq_self_of {p : Char → Bool} {l : List Char}
    (h : ∀ x ∈ l, p x = true) : l.takeWhile p = l := by
  induction l with
  | nil => rfl
  | cons a l ih =>
    simp only [List.takeWhile_cons, h a (List.mem_cons_self a l)]
    exact congrArg (a :: ·) (ih fun x hx => h x (List.mem_cons_of_mem a hx))

lemma dropWhile_eq_nil_of {p : Char → Bool} {l : List Char}
    (h : ∀ x ∈ l, p x = true) : l.dropWhile p = [] := by
  induction l with
  | nil => rfl
  | cons a l ih =>
    simp only [List.dropWhile_cons, h a (List.mem_cons_self a l), if_true]
    exact ih fun x hx => h x (List.mem_cons_of_mem a hx)

lemma takeWhile_sandwich (p : Char → Bool) (pre : List Char) (c : Char)
    (post : List Char) (hpre : ∀ x ∈ pre, p x = true) (hc : p c = false) :
    (pre ++ c :: post).takeWhile p = pre := by
  induction pre with
  | nil => simp [List.takeWhile_cons, hc]
  | cons a pre ih =>
    simp only [List.cons_append, List.takeWhile_cons, hpre a (List.mem_cons_self a pre)]
    exact congrArg (a :: ·) (ih fun x hx => hpre x (List.mem_cons_of_mem a hx))

lemma dropWhile_sandwich (p : Char → Bool) (pre : List Char) (c : Char)
    (post : List Char) (hpre : ∀ x ∈ pre, p x = true) (hc : p c = false) :
    (pre ++ c :: post).dropWhile p = c :: post := by
  induction pre with
  | nil => simp [List.dropWhile_cons, hc]
  | cons a pre ih =>
    simp only [List.cons_append, List.dropWhile_cons, hpre a (List.mem_cons_self a pre),
      if_true]
    exact ih fun x hx => hpre x (List.mem_cons_of_mem a hx)

lemma dropWhile_append_keep {p : Char → Bool} {d : Char} {l2 : List Char}
    (l1 : List Char) (hd : l2.head? = some d) (hpd : p d = false) :
    ∃ s, (l1 ++ l2).dropWhile p = s ++ l2 := by
  induction l1 with
  | nil =>
    refine ⟨[], ?_⟩
    cases l2 with
    | nil => simp at hd
    | cons b l2' =>
      simp only [Option.some_inj, List.head?_cons] at hd
      subst hd
      simp [List.dropWhile_cons, hpd]
  | cons a l1 ih =>
    by_cases hpa : p a = true
    · obtain ⟨s, hs⟩ := ih
      exact ⟨s, by simp [List.dropWhile_cons, hpa, hs]⟩
    · exact ⟨a :: l1, by simp [List.dropWhile_cons, hpa]⟩

lemma parse_tokens_go_nil (pickO : List (List Char) → Option (List Char))
    (fuel : Nat) : parse_tokens_go pickO fuel [] = [] := by
  cases fuel <;> rfl

lemma parse_tokens_go_no_brace (pickO : List (List Char) → Option (List Char))
    (fuel : Nat) {body : List Char} (h : '{' ∉ body) :
    parse_tokens_go pickO fuel body =
      if body.isEmpty then [] else [Token.Text body] := by
  have hd := dropWhile_eq_nil_of (forall_bne_of_not_mem h)
  have ht := takeWhile_eq_self_of (forall_bne_of_not_mem h)
  simp only [parse_tokens_go, hd, ht]

lemma parse_tokens_go_unterminated (pickO : List (List Char) → Option (List Char))
    (fuel : Nat) {pre post : List Char} (hpre : '{' ∉ pre) (hpost : '}' ∉ post) :
    parse_tokens_go pickO fuel (pre ++ '{' :: post) =
      (if pre.isEmpty then [] else [Token.Text pre]) ++ [Token.Text ('{' :: post)] := by
  have hd := dropWhile_sandwich (fun c => c != '{') pre '{' post
    (forall_bne_of_not_mem hpre) (by decide)
  have ht := takeWhile_sandwich (fun c => c != '{') pre '{' post
    (forall_bne_of_not_mem hpre) (by decide)
  have hd2 := dropWhile_eq_nil_of (forall_bne_of_not_mem hpost)
  rw [parse_tokens_go.eq_def]
  dsimp only
  rw [hd, ht]
  dsimp only
  rw [hd2]

lemma parse_tokens_go_step (pickO : List (List Char) → Option (List Char))
    (fuel' : Nat) {pre inner : List Char} (post : List Char)
    (hpre : '{' ∉ pre) (hinner : '}' ∉ inner) :
    parse_tokens_go pickO (fuel' + 1) (pre ++ '{' :: (inner ++ '}' :: post)) =
      (if pre.isEmpty then [] else [Token.Text pre]) ++
        ((parse_placeholder pickO inner ('{' :: (inner ++ ['}']))).getD
            (Token.Text ('{' :: (inner ++ ['}'])))
          :: parse_tokens_go pickO fuel' post) := by
  have hd := dropWhile_sandwich (fun c => c != '{') pre '{' (inner ++ '}' :: post)
    (forall_bne_of_not_mem hpre) (by decide)
  have ht := takeWhile_sandwich (fun c => c != '{') pre '{' (inner ++ '}' :: post)
    (forall_bne_of_not_mem hpre) (by decide)
  have hd2 := dropWhile_sandwich (fun c => c != '}') inner '}' post
    (forall_bne_of_not_mem hinner) (by decide)
  have ht2 := takeWhile_sandwich (fun c => c != '}') inner '}' post
    (forall_bne_of_not_mem hinner) (by decide)
  rw [parse_tokens_go.eq_def]
  dsimp only
  rw [hd, ht]
  dsimp only
  rw [hd2, ht2]

lemma span_decomp (c : Char) (l : List Char) :
    c ∉ l ∨ ∃ pre post, l = pre ++ c :: post ∧ c ∉ pre := by
  induction l with
  | nil => exact Or.inl (List.not_mem_nil c)
  | cons a l ih =>
    by_cases hac : a = c
    · subst hac
      exact Or.inr ⟨[], l, rfl, List.not_mem_nil a⟩
    · rcases ih with h | ⟨pre, post, rfl, hpre⟩
      · refine Or.inl ?_
        intro hmem
        rcases List.mem_cons.mp hmem with h1 | h1
        · exact hac h1.symm
        · exact h h1
      · refine Or.inr ⟨a :: pre, post, rfl, ?_⟩
        intro hmem
        rcases List.mem_cons.mp hmem with h1 | h1
        · exact hac h1.symm
        · exact hpre h1

lemma parse_tokens_go_fuel_succ (pickO : List (List Char) → Option (List Char)) :
    ∀ (fuel : Nat) (body : List Char), body.length ≤ fuel →
      parse_tokens_go pickO (fuel + 1) body = parse_tokens_go pickO fuel body := by
  intro fuel
  induction fuel with
  | zero =>
    intro body hb
    have hnil : body = [] := List.length_eq_zero.mp (Nat.le_zero.mp hb)
    subst hnil
    rw [parse_tokens_go_nil, parse_tokens_go_nil]
  | succ f ih =>
    intro body hb
    rcases span_decomp '{' body with h | ⟨pre, rest, rfl, hpre⟩
    · rw [parse_tokens_go_no_brace pickO _ h, parse_tokens_go_no_brace pickO _ h]
    · rcases span_decomp '}' rest with h2 | ⟨inner, post, rfl, hinner⟩
      · rw [parse_tokens_go_unterminated pickO _ hpre h2,
          parse_tokens_go_unterminated pickO _ hpre h2]
      · rw [parse_tokens_go_step pickO (f + 1) post hpre hinner,
          parse_tokens_go_step pickO f post hpre hinner]
        have hlen : post.length ≤ f := by
          simp only [List.length_append, List.length_cons] at hb
          omega
        rw [ih post hlen]

lemma parse_tokens_go_fuel_add (pickO : List (List Char) → Option (List Char))
    (d : Nat) : ∀ (fuel : Nat) (body : List Char), body.length ≤ fuel →
      parse_tokens_go pickO (fuel + d) body = parse_tokens_go pickO fuel body := by
  induction d with
  | zero => intro fuel body _; rfl
  | succ d ih =>
    intro fuel body hb
    have h1 : fuel + (d + 1) = (fuel + d) + 1 := rfl
    rw [h1, parse_tokens_go_fuel_succ pickO (fuel + d) body
      (le_trans hb (Nat.le_add_right fuel d)), ih fuel body hb]

lemma parse_tokens_go_eq (pickO : List (List Char) → Option (List Char))
    (fuel : Nat) (body : List Char) (h : body.length ≤ fuel) :
    parse_tokens_go pickO fuel body = parse_tokens pickO body := by
  obtain ⟨d, rfl⟩ := Nat.exists_eq_add_of_le h
  exact parse_tokens_go_fuel_add pickO d body.length body (le_refl _)

lemma parse_tokens_no_brace (pickO : List (List Char) → Option (List Char))
    {body : List Char} (h : '{' ∉ body) :
    parse_tokens pickO body = if body.isEmpty then [] else [Token.Text body] :=
  parse_tokens_go_no_brace pickO body.length h

lemma parse_tokens_unterminated (pickO : List (List Char) → Option (List Char))
    {pre post : List Char} (hpre : '{' ∉ pre) (hpost : '}' ∉ post) :
    parse_tokens pickO (pre ++ '{' :: post) =
      (if pre.isEmpty then [] else [Token.Text pre]) ++ [Token.Text ('{' :: post)] :=
  parse_tokens_go_unterminated pickO _ hpre hpost

lemma parse_tokens_step (pickO : List (List Char) → Option (List Char))
    {pre inner : List Char} (post : List Char)
    (hpre : '{' ∉ pre) (hinner : '}' ∉ inner) :
    parse_tokens pickO (pre ++ '{' :: (inner ++ '}' :: post)) =
      (if pre.isEmpty then [] else [Token.Text pre]) ++
        ((parse_placeholder pickO inner ('{' :: (inner ++ ['}']))).getD
            (Token.Text ('{' :: (inner ++ ['}'])))
          :: parse_tokens pickO post) := by
  have hlen : (pre ++ '{' :: (inner ++ '}' :: post)).length =
      (pre.length + inner.length + post.length + 1) + 1 := by
    simp only [List.length_append, List.length_cons]
    omega
  rw [parse_tokens, hlen,
    parse_tokens_go_step pickO (pre.length + inner.length + post.length + 1) post hpre hinner,
    parse_tokens_go_eq pickO _ post (by omega)]

lemma placeholder_getD_rawText (pickO : List (List Char) → Option (List Char))
    (inner raw : List Char) :
    ((parse_placeholder pickO inner raw).getD (Token.Text raw)).rawText = raw := by
  simp only [parse_placeholder]
  split
  · split
    · rfl
    · rfl
  · split
    · rfl
    · rfl

lemma parse_tokens_go_coverage (pickO : List (List Char) → Option (List Char)) :
    ∀ (fuel : Nat) (body : List Char), body.length ≤ fuel →
      (List.map Token.rawText (parse_tokens_go pickO fuel body)).flatten = body := by
  intro fuel
  induction fuel with
  | zero =>
    intro body hb
    have hnil : body = [] := List.length_eq_zero.mp (Nat.le_zero.mp hb)
    subst hnil
    rw [parse_tokens_go_nil]
    rfl
  | succ f ih =>
    intro body hb
    rcases span_decomp '{' body with h | ⟨pre, rest, rfl, hpre⟩
    · rw [parse_tokens_go_no_brace pickO _ h]
      cases body with
      | nil => rfl
      | cons a l => simp [Token.rawText]
    · rcases span_decomp '}' rest with h2 | ⟨inner, post, rfl, hinner⟩
      · rw [parse_tokens_go_unterminated pickO _ hpre h2]
        by_cases hp : pre = []
        · subst hp
          simp [Token.rawText]
        · rw [if_neg (by simpa [List.isEmpty_iff] using hp)]
          simp [Token.rawText]
      · rw [parse_tokens_go_step pickO f post hpre hinner]
        have hlen : post.length ≤ f := by
          simp only [List.length_append, List.length_cons] at hb
          omega
        have hcov := ih post hlen
        have hraw := placeholder_getD_rawText pickO inner ('{' :: (inner ++ ['}']))
        by_cases hp : pre = []
        · subst hp
          simp only [List.isEmpty_nil, if_true, List.nil_append, List.map_cons,
            List.flatten_cons, hraw, hcov]
          simp
        · rw [if_neg (by simpa [List.isEmpty_iff] using hp)]
          simp only [List.map_append, List.map_cons, List.flatten_append,
            List.flatten_cons, hraw, hcov]
          simp [Token.rawText]

lemma render_template_raw (tokens : List Token) (fields : List Field)
    (hf : ∀ f ∈ fields, f.value = [])
    (hnr : ∀ t ∈ tokens, t.isRandom = false) :
    render_template tokens fields = (List.map Token.rawText tokens).flatten := by
  induction tokens with
  | nil => rfl
  | cons tok rest ih =>
    have hrest := ih fun t ht => hnr t (List.mem_cons_of_mem tok ht)
    show renderToken fields tok ++ render_template rest fields = _
    rw [hrest]
    cases tok with
    | Text s => simp [renderToken, Token.rawText]
    | Var name d raw =>
      simp only [List.map_cons, List.flatten_cons, Token.rawText]
      congr 1
      simp only [renderToken]
      cases hfind : fields.find? (fun f => f.name == name) with
      | none => simp
      | some fld =>
        have hmem := List.mem_of_find?_eq_some hfind
        have hval := hf fld hmem
        simp [hval]
    | Random opts choice raw =>
      have := hnr _ (List.mem_cons_self _ rest)
      simp [Token.isRandom] at this

/-- C1: for every body whose token sequence contains only `Text` and `Var`
tokens (no `Random`), rendering with every field value left empty yields a
string identical to the original body. -/
theorem c1_round_trip (pickO : List (List Char) → Option (List Char))
    (fields : List Field) (body : List Char)
    (hf : ∀ f ∈ fields, f.value = [])
    (hnr : ∀ t ∈ parse_tokens pickO body, t.isRandom = false) :
    render_template (parse_tokens pickO body) fields = body := by
  rw [render_template_raw _ _ hf hnr, parse_tokens,
    parse_tokens_go_coverage pickO body.length body (le_refl _)]

/-- C1 witness: the round trip at a concrete body with two variables. -/
theorem c1_round_trip_witness :
    render_template (parse_tokens headPick "hi {name}, {x|the x}!".data)
      (collect_fields (parse_tokens headPick "hi {name}, {x|the x}!".data)) =
      "hi {name}, {x|the x}!".data :=
  c1_round_trip headPick _ _ (by decide) (by decide)

/-- C2 counterexample: tokenizing the empty body (which contains no brace)
yields the empty token list, not one `Text` token equal to the input. -/
theorem c2_counterexample :
    parse_tokens headPick [] = [] ∧ parse_tokens headPick [] ≠ [Token.Text []] := by
  decide

/-- C2 (amended): for every body containing no brace, tokenizing yields one
`Text` token equal to the input when the body is non-empty, and the empty
token list when the body is empty. -/
theorem c2_text_token (pickO : List (List Char) → Option (List Char))
    (body : List Char) (h : '{' ∉ body) :
    parse_tokens pickO body = if body.isEmpty then [] else [Token.Text body] :=
  parse_tokens_no_brace pickO h

/-- C2 witness: a concrete brace-free body. -/
theorem c2_text_token_witness :
    parse_tokens headPick ['a', 'b'] =
      if (['a', 'b'] : List Char).isEmpty then [] else [Token.Text ['a', 'b']] :=
  c2_text_token headPick ['a', 'b'] (by decide)

/-- C5: an opening brace with no closing brace after it becomes a single
trailing `Text` token holding everything from the brace to end of input;
when a closing brace exists, the first one closes the span regardless of the
content between (the inner text may itself contain opening braces). -/
theorem c5_unterminated_and_first_close (pickO : List (List Char) → Option (List Char))
    (pre post inner tail : List Char)
    (hpre : '{' ∉ pre) (hpost : '}' ∉ post) (hinner : '}' ∉ inner) :
    parse_tokens pickO (pre ++ '{' :: post) =
      (if pre.isEmpty then [] else [Token.Text pre]) ++ [Token.Text ('{' :: post)] ∧
    parse_tokens pickO (pre ++ '{' :: (inner ++ '}' :: tail)) =
      (if pre.isEmpty then [] else [Token.Text pre]) ++
        ((parse_placeholder pickO inner ('{' :: (inner ++ ['}']))).getD
            (Token.Text ('{' :: (inner ++ ['}'])))
          :: parse_tokens pickO tail) :=
  ⟨parse_tokens_unterminated pickO hpre hpost, parse_tokens_step pickO tail hpre hinner⟩

/-- C5 witness: concrete unterminated and nested-brace bodies. -/
theorem c5_unterminated_and_first_close_witness :
    parse_tokens headPick (['a'] ++ '{' :: ['b']) =
      [Token.Text ['a'], Token.Text ['{', 'b']] ∧
    parse_tokens headPick (['a'] ++ '{' :: (['x', '{', 'y'] ++ '}' :: ['z'])) =
      [Token.Text ['a'], Token.Var ['x', '{', 'y'] none ['{', 'x', '{', 'y', '}'],
        Token.Text ['z']] := by
  have h := c5_unterminated_and_first_close headPick ['a'] ['b'] ['x', '{', 'y'] ['z']
    (by decide) (by decide) (by decide)
  exact ⟨h.1.trans (by decide), h.2.trans (by decide)⟩

lemma isPrefixOf_self_append (l1 l2 : List Char) : l1.isPrefixOf (l1 ++ l2) = true := by
  induction l1 with
  | nil => simp [List.isPrefixOf]
  | cons a l ih => simp [List.isPrefixOf, ih]

lemma trimStart_cons_not_ws (c : Char) (l : List Char) (h : isRustWhitespace c = false) :
    trimStart (c :: l) = c :: l := by
  simp [trimStart, List.dropWhile_cons, h]

lemma trimEnd_keeps_prefix (l1 l2 : List Char) (d : Char)
    (hd : l1.reverse.head? = some d) (hw : isRustWhitespace d = false) :
    ∃ s, trimEnd (l1 ++ l2) = l1 ++ s := by
  obtain ⟨s, hs⟩ := dropWhile_append_keep l2.reverse hd hw
  refine ⟨s.reverse, ?_⟩
  rw [trimEnd, List.reverse_append, hs, List.reverse_append, List.reverse_reverse]

lemma rustTrim_cons_keep (c : Char) (l : List Char) (h : isRustWhitespace c = false) :
    ∃ s, rustTrim (c :: l) = c :: s := by
  rw [rustTrim, trimStart_cons_not_ws c l h]
  obtain ⟨s, hs⟩ := trimEnd_keeps_prefix [c] l c (by simp) h
  exact ⟨s, by simpa using hs⟩

lemma rustTrim_randomKey_append (rest : List Char) :
    ∃ s, rustTrim (randomKey ++ rest) = randomKey ++ s := by
  rw [rustTrim]
  have h1 : trimStart (randomKey ++ rest) = randomKey ++ rest := by
    have h2 : randomKey ++ rest = 'r' :: (['a', 'n', 'd', 'o', 'm', '|'] ++ rest) := rfl
    rw [h2, trimStart_cons_not_ws 'r' _ (by decide)]
  rw [h1]
  exact trimEnd_keeps_prefix randomKey rest '|' (by decide) (by decide)

lemma parse_tokens_nil_pt (pickO : List (List Char) → Option (List Char)) :
    parse_tokens pickO [] = [] :=
  parse_tokens_go_nil pickO 0

/-- C3 counterexample: the spec string consisting of one complete empty
quoted pair yields an option list containing the empty string (the quoted
loop pushes `current` on every closing quote without an emptiness check). -/
theorem c3_counterexample :
    [] ∈ parse_random_options ['"', '"'] ∧ parse_random_options ['"', '"'] = [[]] := by
  decide

/-- C3 (amended): empty option tokens are discarded in the
whitespace-splitting fallback mode: whenever quoted scanning produces no
option, the result never contains the empty string. (In quoted mode a
complete empty pair does produce an empty option, see the counterexample.) -/
theorem c3_no_empty_in_fallback (input : List Char)
    (hq : scanQuoted input false [] = []) :
    [] ∉ parse_random_options input := by
  intro hmem
  simp only [parse_random_options, hq, List.isEmpty_nil, if_true] at hmem
  rcases List.mem_filter.mp hmem with ⟨-, hne⟩
  simp at hne

/-- C3 witness: a concrete quoteless spec string with empty comma tokens. -/
theorem c3_no_empty_in_fallback_witness :
    [] ∉ parse_random_options "a ,,".data :=
  c3_no_empty_in_fallback _ (by decide)

/-- C4: each malformed single-placeholder body — `{}`, `{|desc}` for any
description, and `{random|rest}` whose option extraction yields zero
options — tokenizes to a single `Text` token equal to the whole span, and
classification never signals an error (the total function returns a token
list in every case). -/
theorem c4_malformed_literal (pickO : List (List Char) → Option (List Char))
    (desc rest : List Char) (hdesc : '}' ∉ desc) (hrest : '}' ∉ rest)
    (hopts : parse_random_options
      ((rustTrim (randomKey ++ rest)).drop randomKey.length) = []) :
    parse_tokens pickO ('{' :: ['}']) = [Token.Text ('{' :: ['}'])] ∧
    parse_tokens pickO ('{' :: ('|' :: desc) ++ ['}']) =
      [Token.Text ('{' :: ('|' :: desc) ++ ['}'])] ∧
    parse_tokens pickO ('{' :: (randomKey ++ rest) ++ ['}']) =
      [Token.Text ('{' :: (randomKey ++ rest) ++ ['}'])] := by
  refine ⟨?_, ?_, ?_⟩
  · have h := @parse_tokens_step pickO [] [] [] (by decide) (by decide)
    have hpl : parse_placeholder pickO [] ('{' :: ([] ++ ['}'])) = none := rfl
    simpa [hpl, parse_tokens_nil_pt] using h
  · have hinner : '}' ∉ ('|' :: desc) := by simp [hdesc]
    have h := @parse_tokens_step pickO [] ('|' :: desc) [] (by decide) hinner
    obtain ⟨s, hs⟩ := rustTrim_cons_keep '|' desc (by decide)
    have hnp : randomKey.isPrefixOf ('|' :: s) = false := by
      simp [randomKey, List.isPrefixOf]
    have hpl : parse_placeholder pickO ('|' :: desc)
        ('{' :: '|' :: (desc ++ ['}'])) = none := by
      rw [parse_placeholder.eq_def]
      dsimp only
      rw [hs, hnp]
      simp [rustTrim, trimStart, trimEnd]
    simpa [hpl, parse_tokens_nil_pt] using h
  · have hinner : '}' ∉ (randomKey ++ rest) := by
      simp [randomKey, hrest]
    have h := @parse_tokens_step pickO [] (randomKey ++ rest) [] (by decide) hinner
    obtain ⟨s, hs⟩ := rustTrim_randomKey_append rest
    have hp : randomKey.isPrefixOf (randomKey ++ s) = true := isPrefixOf_self_append _ _
    have hdl : (randomKey ++ s).drop randomKey.length = s := List.drop_left _ _
    have hopts2 : parse_random_options s = [] := by
      rw [← hdl, ← hs]
      exact hopts
    have hpl : parse_placeholder pickO (randomKey ++ rest)
        ('{' :: (randomKey ++ (rest ++ ['}']))) =
        some (Token.Text ('{' :: (randomKey ++ (rest ++ ['}'])))) := by
      rw [parse_placeholder.eq_def]
      dsimp only
      rw [hs, hp, hdl, hopts2]
      simp
    simpa [hpl, parse_tokens_nil_pt] using h

/-- C4 witness: the three concrete malformed bodies of the spec. -/
theorem c4_malformed_literal_witness :
    parse_tokens headPick ('{' :: ['}']) = [Token.Text ('{' :: ['}'])] ∧
    parse_tokens headPick ('{' :: ('|' :: ['d']) ++ ['}']) =
      [Token.Text ('{' :: ('|' :: ['d']) ++ ['}'])] ∧
    parse_tokens headPick ('{' :: (randomKey ++ []) ++ ['}']) =
      [Token.Text ('{' :: (randomKey ++ []) ++ ['}'])] :=
  c4_malformed_literal headPick ['d'] [] (by decide) (by decide) (by decide)

lemma parse_tokens_go_zero_close (pickO : List (List Char) → Option (List Char))
    {pre inner : List Char} (post : List Char)
    (hpre : '{' ∉ pre) (hinner : '}' ∉ inner) :
    parse_tokens_go pickO 0 (pre ++ '{' :: (inner ++ '}' :: post)) =
      (if pre.isEmpty then [] else [Token.Text pre]) := by
  have hd := dropWhile_sandwich (fun c => c != '{') pre '{' (inner ++ '}' :: post)
    (forall_bne_of_not_mem hpre) (by decide)
  have ht := takeWhile_sandwich (fun c => c != '{') pre '{' (inner ++ '}' :: post)
    (forall_bne_of_not_mem hpre) (by decide)
  have hd2 := dropWhile_sandwich (fun c => c != '}') inner '}' post
    (forall_bne_of_not_mem hinner) (by decide)
  rw [parse_tokens_go.eq_def]
  dsimp only
  rw [hd, ht]
  dsimp only
  rw [hd2]

lemma mem_if_text {t : Token} {pre : List Char}
    (h : t ∈ (if pre.isEmpty then ([] : List Token) else [Token.Text pre])) :
    t = Token.Text pre := by
  by_cases hp : pre.isEmpty
  · rw [if_pos hp] at h
    cases h
  · rw [if_neg hp] at h
    rcases List.mem_cons.mp h with h1 | h1
    · exact h1
    · cases h1

lemma parse_tokens_go_shape (pickO : List (List Char) → Option (List Char)) :
    ∀ (fuel : Nat) (body : List Char) (t : Token),
      t ∈ parse_tokens_go pickO fuel body →
      (∃ s, t = Token.Text s) ∨ ∃ inner raw, parse_placeholder pickO inner raw = some t := by
  intro fuel
  induction fuel with
  | zero =>
    intro body t ht
    rcases span_decomp '{' body with h | ⟨pre, rest, rfl, hpre⟩
    · rw [parse_tokens_go_no_brace pickO _ h] at ht
      exact Or.inl ⟨body, mem_if_text ht⟩
    · rcases span_decomp '}' rest with h2 | ⟨inner, post, rfl, hinner⟩
      · rw [parse_tokens_go_unterminated pickO _ hpre h2] at ht
        rcases List.mem_append.mp ht with h3 | h3
        · exact Or.inl ⟨pre, mem_if_text h3⟩
        · rcases List.mem_cons.mp h3 with h4 | h4
          · exact Or.inl ⟨'{' :: rest, h4⟩
          · cases h4
      · rw [parse_tokens_go_zero_close pickO post hpre hinner] at ht
        exact Or.inl ⟨pre, mem_if_text ht⟩
  | succ f ih =>
    intro body t ht
    rcases span_decomp '{' body with h | ⟨pre, rest, rfl, hpre⟩
    · rw [parse_tokens_go_no_brace pickO _ h] at ht
      exact Or.inl ⟨body, mem_if_text ht⟩
    · rcases span_decomp '}' rest with h2 | ⟨inner, post, rfl, hinner⟩
      · rw [parse_tokens_go_unterminated pickO _ hpre h2] at ht
        rcases List.mem_append.mp ht with h3 | h3
        · exact Or.inl ⟨pre, mem_if_text h3⟩
        · rcases List.mem_cons.mp h3 with h4 | h4
          · exact Or.inl ⟨'{' :: rest, h4⟩
          · cases h4
      · rw [parse_tokens_go_step pickO f post hpre hinner] at ht
        rcases List.mem_append.mp ht with h3 | h3
        · exact Or.inl ⟨pre, mem_if_text h3⟩
        · rcases List.mem_cons.mp h3 with h4 | h4
          · cases hpp : parse_placeholder pickO inner ('{' :: (inner ++ ['}'])) with
            | none =>
              rw [hpp] at h4
              exact Or.inl ⟨'{' :: (inner ++ ['}']), h4⟩
            | some tok =>
              rw [hpp] at h4
              subst h4
              exact Or.inr ⟨inner, '{' :: (inner ++ ['}']), hpp⟩
          · exact ih post t h4

lemma headPick_mem : ∀ (l : List (List Char)) (x : List Char),
    headPick l = some x → x ∈ l := by
  intro l x h
  cases l with
  | nil => cases h
  | cons a rest =>
    have : a = x := by simpa [headPick] using h
    subst this
    exact List.mem_cons_self a rest

lemma headPick_isSome : ∀ l : List (List Char), l ≠ [] → (headPick l).isSome = true := by
  intro l h
  cases l with
  | nil => exact absurd rfl h
  | cons a rest => rfl

/-- C9: every `Random` token produced by tokenizing any body has a non-empty
options list and a current choice that is a member of that list (for any
faithful pick function). -/
theorem c9_random_invariant (pickO : List (List Char) → Option (List Char))
    (hpick : ∀ (l : List (List Char)) (x : List Char), pickO l = some x → x ∈ l)
    (hsome : ∀ l : List (List Char), l ≠ [] → (pickO l).isSome = true)
    (body : List Char) (opts : List (List Char)) (choice raw : List Char)
    (ht : Token.Random opts choice raw ∈ parse_tokens pickO body) :
    opts ≠ [] ∧ choice ∈ opts := by
  rcases parse_tokens_go_shape pickO body.length body _ ht with ⟨s, h⟩ | ⟨inner, raw', hpp⟩
  · cases h
  · rw [parse_placeholder.eq_def] at hpp
    dsimp only at hpp
    split at hpp
    · split at hpp
      · cases hpp
      · rename_i hne
        simp only [Option.some.injEq, Token.Random.injEq] at hpp
        obtain ⟨ho, hc, -⟩ := hpp
        subst ho
        have hopts : parse_random_options ((rustTrim inner).drop randomKey.length) ≠ [] := by
          intro hnil
          rw [hnil] at hne
          exact hne rfl
        refine ⟨hopts, ?_⟩
        obtain ⟨x, hx⟩ := Option.isSome_iff_exists.mp (hsome _ hopts)
        rw [← hc, hx]
        exact hpick _ x hx
    · split at hpp
      · cases hpp
      · cases hpp

/-- C9 witness: the options and choice of the token produced by a concrete
random placeholder. -/
theorem c9_random_invariant_witness :
    ([['a'], ['b']] : List (List Char)) ≠ [] ∧ (['a'] : List Char) ∈ [['a'], ['b']] :=
  c9_random_invariant headPick headPick_mem headPick_isSome
    "{random|a b}".data [['a'], ['b']] ['a'] "{random|a b}".data (by decide)

lemma reroll_keeps_shape (pickO : List (List Char) → Option (List Char))
    (tokens : List Token) :
    (reroll_random pickO tokens).map Token.stripChoice = tokens.map Token.stripChoice := by
  induction tokens with
  | nil => rfl
  | cons t rest ih =>
    simp only [reroll_random, List.map_cons] at ih ⊢
    refine congrArg₂ (· :: ·) ?_ ih
    cases t with
    | Text s => rfl
    | Var n d r => rfl
    | Random opts ch raw => cases hpo : pickO opts <;> simp [hpo, Token.stripChoice]

/-- C8 (amended): rerolling leaves `Text` and `Var` tokens untouched and
keeps every `Random` token's options and raw span; a `Random` token with a
non-empty options list gets a choice that is a member of its own options,
while one with an empty options list keeps its previous choice; iterating
any number of rerolls never changes any option set. -/
theorem c8_reroll_frame (pickO : List (List Char) → Option (List Char))
    (hpick : ∀ (l : List (List Char)) (x : List Char), pickO l = some x → x ∈ l)
    (hsome : ∀ l : List (List Char), l ≠ [] → (pickO l).isSome = true)
    (tokens : List Token) (n : Nat) :
    List.Forall₂ rerollRel tokens (reroll_random pickO tokens) ∧
    ((reroll_random pickO)^[n] tokens).map Token.stripChoice =
      tokens.map Token.stripChoice := by
  constructor
  · induction tokens with
    | nil => exact List.Forall₂.nil
    | cons t rest ih =>
      simp only [reroll_random, List.map_cons]
      refine List.Forall₂.cons ?_ ih
      cases t with
      | Text s => rfl
      | Var nm d r => rfl
      | Random opts ch raw =>
        constructor
        · intro hnil
          subst hnil
          have hnone : pickO [] = none := by
            cases hpo : pickO [] with
            | none => rfl
            | some x => exact absurd (hpick [] x hpo) (List.not_mem_nil x)
          simp [hnone]
        · intro hne
          obtain ⟨x, hx⟩ := Option.isSome_iff_exists.mp (hsome opts hne)
          exact ⟨x, hpick opts x hx, by simp [hx]⟩
  · induction n with
    | zero => rfl
    | succ n ihn =>
      rw [Function.iterate_succ_apply', reroll_keeps_shape, ihn]

/-- C8 counterexample: on a token sequence holding a `Random` token with an
empty options list, reroll leaves the old choice, which is not a member of
the (empty) options list — so "replaces the choice of every Random token
with a member of its own options" fails for arbitrary sequences. -/
theorem c8_counterexample :
    reroll_random headPick [Token.Random [] ['x'] ['r']] =
      [Token.Random [] ['x'] ['r']] ∧
    (['x'] : List Char) ∉ ([] : List (List Char)) := by
  decide

/-- C8 witness: the frame property at a concrete three-token sequence and
two reroll iterations. -/
theorem c8_reroll_frame_witness :
    List.Forall₂ rerollRel
      [Token.Text ['t'], Token.Var ['v'] none ['r'], Token.Random [['a'], ['b']] ['b'] ['q']]
      (reroll_random headPick
        [Token.Text ['t'], Token.Var ['v'] none ['r'], Token.Random [['a'], ['b']] ['b'] ['q']]) ∧
    ((reroll_random headPick)^[2]
        [Token.Text ['t'], Token.Var ['v'] none ['r'], Token.Random [['a'], ['b']] ['b'] ['q']]).map
        Token.stripChoice =
      [Token.Text ['t'], Token.Var ['v'] none ['r'],
        Token.Random [['a'], ['b']] ['b'] ['q']].map Token.stripChoice :=
  c8_reroll_frame headPick headPick_mem headPick_isSome
    [Token.Text ['t'], Token.Var ['v'] none ['r'], Token.Random [['a'], ['b']] ['b'] ['q']] 2

lemma varPairs_cons_var (n : List Char) (d : Option (List Char)) (r : List Char)
    (rest : List Token) :
    varPairs (Token.Var n d r :: rest) = (n, d) :: varPairs rest := rfl

lemma varPairs_cons_text (s : List Char) (rest : List Token) :
    varPairs (Token.Text s :: rest) = varPairs rest := rfl

lemma varPairs_cons_random (opts : List (List Char)) (ch r : List Char)
    (rest : List Token) :
    varPairs (Token.Random opts ch r :: rest) = varPairs rest := rfl

lemma collect_fields_go_spec : ∀ (ts : List Token) (acc : List Field),
    collect_fields_go acc ts =
      acc ++ extractFieldsSpec
        ((varPairs ts).filter (fun q => !acc.any (fun f => f.name == q.1))) := by
  intro ts
  induction ts with
  | nil =>
    intro acc
    simp [collect_fields_go, varPairs, extractFieldsSpec]
  | cons t rest ih =>
    intro acc
    cases t with
    | Text s =>
      show collect_fields_go acc rest = _
      rw [ih, varPairs_cons_text]
    | Random opts ch r =>
      show collect_fields_go acc rest = _
      rw [ih, varPairs_cons_random]
    | Var n d r =>
      rw [varPairs_cons_var]
      by_cases hany : acc.any (fun f => f.name == n) = true
      · show (if acc.any (fun f => f.name == n) then collect_fields_go acc rest
          else collect_fields_go (acc ++ [⟨n, mkLabel n d, []⟩]) rest) = _
        rw [if_pos hany, ih, List.filter_cons_of_neg (by simp [hany])]
      · show (if acc.any (fun f => f.name == n) then collect_fields_go acc rest
          else collect_fields_go (acc ++ [⟨n, mkLabel n d, []⟩]) rest) = _
        rw [if_neg hany, ih, List.filter_cons_of_pos (by simp [hany])]
        rw [extractFieldsSpec]
        rw [List.append_assoc]
        refine congrArg (acc ++ ·) ?_
        refine congrArg₂ (fun a b => a :: b) rfl ?_
        refine congrArg extractFieldsSpec ?_
        rw [List.filter_filter]
        refine List.filter_congr ?_
        intro q hq
        simp only [List.any_append, List.any_cons, List.any_nil, Bool.or_false,
          Bool.not_or]
        by_cases hqn : q.1 = n
        · subst hqn
          simp
        · simp [hqn, Ne.symm hqn, beq_eq_false_iff_ne]

lemma spec_fields_value : ∀ (pairs : List (List Char × Option (List Char)))
    (f : Field), f ∈ extractFieldsSpec pairs → f.value = [] := by
  intro pairs
  induction pairs using extractFieldsSpec.induct with
  | case1 =>
    intro f hf
    rw [extractFieldsSpec] at hf
    cases hf
  | case2 n d rest ih =>
    intro f hf
    rw [extractFieldsSpec] at hf
    rcases List.mem_cons.mp hf with h | h
    · subst h
      rfl
    · exact ih f h

/-- C6: field extraction returns exactly one field per distinct `Var` name in
first-occurrence order, labelled from the first occurrence (name plus
parenthesised description when the description is non-empty) with empty
initial value — stated as equality with the spec-side first-occurrence dedup
`extractFieldsSpec` — and re-extraction from the same tokens yields the same
list (trivially, since the extraction is a pure function). -/
theorem c6_collect_fields (tokens : List Token) :
    collect_fields tokens = extractFieldsSpec (varPairs tokens) ∧
    (∀ f ∈ collect_fields tokens, f.value = []) ∧
    collect_fields tokens = collect_fields tokens := by
  have h1 : collect_fields tokens = extractFieldsSpec (varPairs tokens) := by
    rw [collect_fields, collect_fields_go_spec]
    simp
  refine ⟨h1, ?_, rfl⟩
  intro f hf
  rw [h1] at hf
  exact spec_fields_value _ f hf

/-- C7: the two concrete tree-building examples of the spec: `"A/B"`,`"A/C"`
yield `[A(depth 0, no index), B(depth 1, index 0), C(depth 1, index 1)]`, and
`"A"` before `"A/B"` puts index 0 on the `A` node itself with `B` its child. -/
theorem c7_tree_examples :
    build_tree_items [⟨"A/B".data, []⟩, ⟨"A/C".data, []⟩] =
      [⟨"A".data, 0, none⟩, ⟨"B".data, 1, some 0⟩, ⟨"C".data, 1, some 1⟩] ∧
    build_tree_items [⟨"A".data, []⟩, ⟨"A/B".data, []⟩] =
      [⟨"A".data, 0, some 0⟩, ⟨"B".data, 1, some 1⟩] := by
  decide

lemma hasIdxL_cons (i : Nat) (c : TreeNode) (cs : List TreeNode) :
    hasIdxL i (c :: cs) = (hasIdx i c || hasIdxL i cs) := rfl

lemma hasIdx_mk (i : Nat) (nm : List Char) (ti : Option Nat) (ch : List TreeNode) :
    hasIdx i (.mk nm ti ch) = (ti == some i || hasIdxL i ch) := rfl

lemma hasIdxL_append (i : Nat) (l1 l2 : List TreeNode) :
    hasIdxL i (l1 ++ l2) = (hasIdxL i l1 || hasIdxL i l2) := by
  induction l1 with
  | nil => rfl
  | cons c cs ih => simp [hasIdxL_cons, ih, Bool.or_assoc]

lemma flatten_unfold (nd : TreeNode) (d : Nat) :
    TreeNode.flatten nd d = flattenList nd.children d := by
  cases nd
  rfl

lemma flattenList_hasIdx (i : Nat) :
    ∀ l : List TreeNode, ∀ (d : Nat) (item : TreeItem), item ∈ flattenList l d →
      item.template_index = some i → hasIdxL i l = true :=
  hasIdxL.induct i
    (fun n => ∀ (d : Nat) (item : TreeItem), item ∈ TreeNode.flatten n d →
      item.template_index = some i → hasIdx i n = true)
    (fun l => ∀ (d : Nat) (item : TreeItem), item ∈ flattenList l d →
      item.template_index = some i → hasIdxL i l = true)
    (fun nm ti ch ih => by
      intro d item hmem hidx
      rw [flatten_unfold] at hmem
      have hch : hasIdxL i ch = true := ih d item hmem hidx
      simp [hasIdx_mk, hch])
    (by
      intro d item hmem hidx
      cases hmem)
    (fun c cs ihc ihcs => by
      intro d item hmem hidx
      rcases List.mem_cons.mp hmem with h | h
      · subst h
        have hc : hasIdx i c = true := by
          cases c with
          | mk nm ti ch =>
            simp only [TreeItem.template_index, TreeNode.template_index] at hidx
            simp [hasIdx_mk, hidx]
        simp [hasIdxL_cons, hc]
      · rcases List.mem_append.mp h with h2 | h2
        · have hc := ihc (d + 1) item h2 hidx
          simp [hasIdxL_cons, hc]
        · have hcs := ihcs d item h2 hidx
          simp [hasIdxL_cons, hcs])

lemma replaceFirst_hasIdx (i : Nat) (p : List Char) (f : TreeNode → TreeNode)
    (hf : ∀ nd, hasIdx i (f nd) = true → hasIdx i nd = true) :
    ∀ ch : List TreeNode,
      hasIdxL i (replaceFirstNamed p f ch) = true → hasIdxL i ch = true := by
  intro ch
  induction ch with
  | nil => intro h; exact h
  | cons c cs ih =>
    intro h
    rw [replaceFirstNamed] at h
    by_cases hcp : (c.name == p) = true
    · rw [if_pos hcp] at h
      rw [hasIdxL_cons] at h ⊢
      rcases Bool.or_eq_true_iff.mp h with h1 | h1
      · simp [hf c h1]
      · simp [h1]
    · rw [if_neg hcp] at h
      rw [hasIdxL_cons] at h ⊢
      rcases Bool.or_eq_true_iff.mp h with h1 | h1
      · simp [h1]
      · simp [ih h1]

lemma insert_hasIdx (i idx : Nat) (hne : i ≠ idx) :
    ∀ (parts : List (List Char)) (node : TreeNode),
      hasIdx i (TreeNode.insert idx parts node) = true → hasIdx i node = true := by
  intro parts
  induction parts with
  | nil =>
    intro node h
    cases node with
    | mk nm ti ch =>
      rw [TreeNode.insert] at h
      simp only [TreeNode.children, TreeNode.name, TreeNode.template_index] at h
      rw [hasIdx_mk] at h ⊢
      rcases Bool.or_eq_true_iff.mp h with h1 | h1
      · exact absurd ((Option.some_inj.mp (eq_of_beq h1))).symm hne
      · simp [h1]
  | cons p rest ih =>
    intro node h
    cases node with
    | mk nm ti ch =>
      rw [TreeNode.insert] at h
      simp only [TreeNode.children, TreeNode.name, TreeNode.template_index] at h
      split at h
      · rw [hasIdx_mk] at h ⊢
        rcases Bool.or_eq_true_iff.mp h with h1 | h1
        · simp [h1]
        · have := replaceFirst_hasIdx i p (TreeNode.insert idx rest) (ih) _ h1
          simp [this]
      · rw [hasIdx_mk] at h ⊢
        rcases Bool.or_eq_true_iff.mp h with h1 | h1
        · simp [h1]
        · rw [hasIdxL_append] at h1
          rcases Bool.or_eq_true_iff.mp h1 with h2 | h2
          · simp [h2]
          · rw [hasIdxL_cons] at h2
            rcases Bool.or_eq_true_iff.mp h2 with h3 | h3
            · have := ih _ h3
              rw [hasIdx_mk] at this
              simp at this
              have hfalse : hasIdxL i ([] : List TreeNode) = false := rfl
              rw [hfalse] at this
              cases this
            · cases h3

lemma insert_hasIdxL_children (i idx : Nat) (hne : i ≠ idx)
    (parts : List (List Char)) (node : TreeNode)
    (h : hasIdxL i (TreeNode.insert idx parts node).children = true) :
    hasIdxL i node.children = true := by
  cases parts with
  | nil =>
    cases node with
    | mk nm ti ch => exact h
  | cons p rest =>
    cases node with
    | mk nm ti ch =>
      rw [TreeNode.insert, apply_ite TreeNode.children] at h
      simp only [TreeNode.children, TreeNode.name, TreeNode.template_index] at h ⊢
      split at h
      · exact replaceFirst_hasIdx i p (TreeNode.insert idx rest)
          (insert_hasIdx i idx hne rest) ch h
      · rw [hasIdxL_append] at h
        rcases Bool.or_eq_true_iff.mp h with h1 | h1
        · exact h1
        · rw [hasIdxL_cons] at h1
          rcases Bool.or_eq_true_iff.mp h1 with h2 | h2
          · have := insert_hasIdx i idx hne rest _ h2
            rw [hasIdx_mk] at this
            simp at this
            have hfalse : hasIdxL i ([] : List TreeNode) = false := rfl
            rw [hfalse] at this
            cases this
          · cases h2

lemma fold_insert_no_idx (i : Nat) :
    ∀ (pairs : List (Nat × Template)) (node : TreeNode),
      (∀ q ∈ pairs, q.1 = i → nameSegments q.2.name = []) →
      hasIdxL i node.children = false →
      hasIdxL i ((pairs.foldl
        (fun nd q => TreeNode.insert q.1 (nameSegments q.2.name) nd) node)).children =
        false := by
  intro pairs
  induction pairs with
  | nil => intro node _ h; exact h
  | cons q rest ih =>
    intro node hq h
    rw [List.foldl_cons]
    apply ih _ (fun r hr => hq r (List.mem_cons_of_mem q hr))
    by_cases hqi : q.1 = i
    · have hseg := hq q (List.mem_cons_self q rest) hqi
      rw [hseg]
      cases node with
      | mk nm ti ch => exact h
    · by_contra hcon
      rw [Bool.not_eq_false] at hcon
      have := insert_hasIdxL_children i q.1 (fun he => hqi he.symm) _ _ hcon
      rw [h] at this
      cases this

/-- C10: a template whose name yields no non-empty path segments contributes
no tree item: its template index never appears in the flattened output,
because the index is recorded on the trie root, which is not emitted. -/
theorem c10_rootbound_template_invisible (templates : List Template) (i : Nat)
    (t : Template) (hget : templates[i]? = some t)
    (hsegs : nameSegments t.name = []) :
    ∀ item ∈ build_tree_items templates, item.template_index ≠ some i := by
  intro item hmem hidx
  simp only [build_tree_items] at hmem
  rw [flatten_unfold] at hmem
  have h1 := flattenList_hasIdx i _ 0 item hmem hidx
  have h2 := fold_insert_no_idx i templates.enum (TreeNode.mk [] none [])
    (by
      intro q hqmem hqi
      obtain ⟨a, b⟩ := q
      simp only at hqi
      subst hqi
      have hb : templates[a]? = some b := List.mk_mem_enum_iff_getElem?.mp hqmem
      rw [hget] at hb
      rw [← Option.some_inj.mp hb]
      exact hsegs)
    rfl
  rw [h2] at h1
  cases h1

/-- C10 witness: a template named `"/"` (no non-empty segments) followed by a
template named `"A"`; the only emitted item carries index 1, not 0. -/
theorem c10_rootbound_template_invisible_witness :
    TreeItem.template_index ⟨"A".data, 0, some 1⟩ ≠ some 0 :=
  c10_rootbound_template_invisible [⟨"/".data, "x".data⟩, ⟨"A".data, "y".data⟩]
    0 ⟨"/".data, "x".data⟩ (by decide) (by decide) ⟨"A".data, 0, some 1⟩ (by decide)

end PMT
